import Mathlib

/-!
Verification of the R55 runtime, build orchestrator and guest call layer.

Shallow embedding conventions: bytes are `Nat` values below 256 gathered in
`List Nat`; 256-bit words are `Nat` with explicit `% 2 ^ 256` wrapping where
the source wraps; the keccak256 syscall is an abstract function parameter;
fallible paths return `Option` / `Except`.
-/

namespace R55

/-! ## Byte-level helpers -/

/-- Big-endian byte expansion of a 256-bit word (`U256::to_be_bytes`):
byte `i` is `n / 2 ^ (8 * (31 - i)) % 256`. -/
def beBytes32 (n : Nat) : List Nat :=
  (List.range 32).map (fun i => n / 2 ^ (8 * (31 - i)) % 256)

/-- Big-endian byte expansion of a 32-bit word (`U32::to_be_bytes_vec`). -/
def beBytes4 (n : Nat) : List Nat :=
  (List.range 4).map (fun i => n / 2 ^ (8 * (3 - i)) % 256)

/-- Big-endian byte expansion of a 64-bit word (`u64::to_be_bytes`). -/
def beBytes8 (n : Nat) : List Nat :=
  (List.range 8).map (fun i => n / 2 ^ (8 * (7 - i)) % 256)

/-- Numeric value of a big-endian byte string. -/
def beToNat (bs : List Nat) : Nat :=
  bs.foldl (fun acc b => acc * 256 + b) 0

/-! ## Mapping storage slots (`eth-riscv-runtime/src/types/mapping.rs`) -/

/-- `Mapping<K, S>`: a storage-layout id plus phantom key/value types. -/
structure Mapping (K S : Type) where
  id : Nat

/-- `Mapping::encode_key`: concatenate `key.abi_encode()` with the big-endian
bytes of the mapping id and hash the concatenation with the keccak256
syscall (kept abstract as a function parameter). -/
def Mapping.encode_key {K S : Type} (keccak : List Nat → Nat)
    (abiEncode : K → List Nat) (m : Mapping K S) (key : K) : Nat :=
  keccak (abiEncode key ++ beBytes32 m.id)

/-- `impl Index<K1> for Mapping<K1, Mapping<K2, S>>`: indexing the outer
mapping builds an inner mapping whose id is the encoded outer key. -/
def Mapping.indexNested {K1 K2 S : Type} (keccak : List Nat → Nat)
    (abiEncode : K1 → List Nat) (m : Mapping K1 (Mapping K2 S)) (key : K1) :
    Mapping K2 S :=
  ⟨Mapping.encode_key keccak abiEncode m key⟩

/-- `r55/src/test_utils.rs::get_mapping_slot`: host-side reference slot
computation, `keccak256(key_bytes || id.to_be_bytes::<32>())`. -/
def get_mapping_slot (keccak : List Nat → Nat) (key_bytes : List Nat)
    (id : Nat) : Nat :=
  keccak (key_bytes ++ beBytes32 id)

/-! ## MappingGuard lifecycle (`mapping.rs`) -/

/-- Host-visible storage events issued by guard syscalls. -/
inductive StorageEv (V : Type) where
  | sload (key : Nat)
  | sstore (key : Nat) (v : V)
deriving DecidableEq

/-- Operations a holder can perform on a `MappingGuard` between its
construction and its drop: `Deref` (read view), `DerefMut` (mutable view,
recording the value the holder leaves in the cache) and the explicit
`MappingGuard::write` call. -/
inductive GuardOp (V : Type) where
  | readView
  | mutView (v : V)
  | writeCall (v : V)
deriving DecidableEq

/-- The fields of `MappingGuard`: cached value, storage key, dirty flag. -/
structure GuardSt (V : Type) where
  value : V
  storage_key : Nat
  dirty : Bool
deriving DecidableEq

/-- `MappingGuard::new`: one `S::__read` (an SLOAD of the storage key), dirty
flag starts false. -/
def MappingGuard.new {V : Type} (storage_key : Nat) (stored : V) :
    GuardSt V × List (StorageEv V) :=
  (⟨stored, storage_key, false⟩, [StorageEv.sload storage_key])

/-- One holder operation: `Deref` touches nothing; `DerefMut` sets the dirty
flag (and the holder may overwrite the cached value through the returned
mutable reference); `MappingGuard::write` issues `S::__write` (an SSTORE)
immediately, leaving the cache and the dirty flag untouched. -/
def guardStep {V : Type} (g : GuardSt V) :
    GuardOp V → GuardSt V × List (StorageEv V)
  | GuardOp.readView => (g, [])
  | GuardOp.mutView v => ({ g with value := v, dirty := true }, [])
  | GuardOp.writeCall v => (g, [StorageEv.sstore g.storage_key v])

/-- Run a sequence of holder operations, collecting emitted storage events. -/
def runOps {V : Type} (g : GuardSt V) :
    List (GuardOp V) → GuardSt V × List (StorageEv V)
  | [] => (g, [])
  | op :: rest =>
    let step := guardStep g op
    let tail := runOps step.1 rest
    (tail.1, step.2 ++ tail.2)

/-- `impl Drop for MappingGuard`: SSTORE the cached value iff dirty. -/
def guardDrop {V : Type} (g : GuardSt V) : List (StorageEv V) :=
  if g.dirty then [StorageEv.sstore g.storage_key g.value] else []

/-- Guard state at drop time after running `ops`. -/
def finalGuard {V : Type} (storage_key : Nat) (stored : V)
    (ops : List (GuardOp V)) : GuardSt V :=
  (runOps (MappingGuard.new storage_key stored).1 ops).1

/-- Full storage-event trace of one guard lifetime: construction events,
holder-operation events, drop events. -/
def guardTrace {V : Type} (storage_key : Nat) (stored : V)
    (ops : List (GuardOp V)) : List (StorageEv V) :=
  let birth := MappingGuard.new storage_key stored
  let run := runOps birth.1 ops
  birth.2 ++ run.2 ++ guardDrop run.1

/-- Event classifiers and counters. -/
def isSloadEv {V : Type} : StorageEv V → Bool
  | StorageEv.sload _ => true
  | _ => false

def isSstoreEv {V : Type} : StorageEv V → Bool
  | StorageEv.sstore _ _ => true
  | _ => false

def countSload {V : Type} (evs : List (StorageEv V)) : Nat :=
  (evs.filter isSloadEv).length

def countSstore {V : Type} (evs : List (StorageEv V)) : Nat :=
  (evs.filter isSstoreEv).length

def isWriteOp {V : Type} : GuardOp V → Bool
  | GuardOp.writeCall _ => true
  | _ => false

def isMutOp {V : Type} : GuardOp V → Bool
  | GuardOp.mutView _ => true
  | _ => false

def countWriteOps {V : Type} (ops : List (GuardOp V)) : Nat :=
  (ops.filter isWriteOp).length

/-! ## Guest call return-data path (`eth-riscv-runtime/src/call.rs`) -/

/-- `return_data_copy(dest, src, 32)` materialized on a guest buffer: replace
`buf[off .. off + src.length)` with `src`. -/
def writeAt (buf : List Nat) (off : Nat) (src : List Nat) : List Nat :=
  buf.take off ++ src ++ buf.drop (off + src.length)

/-- The copy loop of `call_contract` / `staticcall_contract`: for
`i in 0..chunks`, copy the 32 bytes of the return buffer at offset `32 * i`
into the guest buffer at the same offset. -/
def copyChunks (ret : List Nat) : Nat → List Nat → List Nat
  | 0, buf => buf
  | Nat.succ k, buf =>
    writeAt (copyChunks ret k buf) (32 * k) ((ret.drop (32 * k)).take 32)

/-- `call_contract`: issue the call (the sub-call's return buffer is `ret`),
resolve `ret_size` (caller-supplied or `ReturnDataSize`), short-circuit an
empty result, else allocate `ret_size` zero bytes and run the copy loop over
`ret_size / 32` chunks. -/
def call_contract (ret : List Nat) (ret_size : Option Nat) :
    Option (List Nat) :=
  let rs := match ret_size with
    | some size => size
    | none => ret.length
  if rs = 0 then some [] else
  some (copyChunks ret (rs / 32) (List.replicate rs 0))

/-- `staticcall_contract`: identical return-data handling (the source
duplicates the body of `call_contract`). -/
def staticcall_contract (ret : List Nat) (ret_size : Option Nat) :
    Option (List Nat) :=
  let rs := match ret_size with
    | some size => size
    | none => ret.length
  if rs = 0 then some [] else
  some (copyChunks ret (rs / 32) (List.replicate rs 0))

/-! ## Address register marshalling (`call.rs`, `create.rs`) -/

/-- `Address::into_word`: left-pad the 20 address bytes with 12 zero bytes
into a 32-byte word. -/
def addrWord (a : List Nat) : List Nat :=
  List.replicate 12 0 ++ a

/-- `call` / `staticcall` address argument registers: the word is read as a
`U256` and its first three little-endian 64-bit limbs go to `a0, a1, a2`
(limb `i` of value `w` is `w / 2 ^ (64 * i) % 2 ^ 64`). -/
def callAddrRegs (a : List Nat) : Nat × Nat × Nat :=
  let w := beToNat (addrWord a)
  (w % 2 ^ 64, w / 2 ^ 64 % 2 ^ 64, w / 2 ^ 128 % 2 ^ 64)

/-- `create` output reconstruction: `bytes[0..8] = first.to_be_bytes()`,
`bytes[8..16] = second.to_be_bytes()`,
`bytes[16..20] = third.to_be_bytes()[..4]`. -/
def createAddress (first second third : Nat) : List Nat :=
  beBytes8 first ++ beBytes8 second ++ (beBytes8 third).take 4

/-- Modelled from the spec: the address the claim's words describe, namely the
20-byte tail of the 256-bit word whose little-endian 64-bit limbs are
`(first, second, third, 0)` — the ordering `call` uses for its address
argument.  Declared only to compare the claim's reading with
`createAddress`. -/
def specLimbAddress (first second third : Nat) : List Nat :=
  (List.replicate 8 0 ++ beBytes8 third ++ beBytes8 second ++
    beBytes8 first).drop 12

/-! ## Initcode layout (`create.rs`, `r55-compile/src/compile.rs`) -/

/-- `GeneratedContract::compile`: prepend the `0xff` tag byte to the deploy
bytecode read back from the toolchain. -/
def compileOutput (deployBytecode : List Nat) : List Nat :=
  0xff :: deployBytecode

/-- `Deployable::deploy` initcode packing:
`[0xff] || be32(bytecode.len()) || bytecode || abi_encoded_args`. -/
def deployInitCode (bytecode encoded_args : List Nat) : List Nat :=
  [0xff] ++ beBytes4 bytecode.length ++ bytecode ++ encoded_args

/-! ## Syscall gas accounting (`r55/src/gas.rs`) -/

/-- The shared interpreter gas state (modelled from the external revm `Gas`
consumed as a library: a limit and the budget still remaining). -/
structure Gas where
  limit : Nat
  remaining : Nat
deriving DecidableEq

/-- revm `Gas::record_cost` (external collaborator): succeed and deduct iff
the cost fits in the remaining budget, else leave the gas untouched. -/
def recordCost (g : Gas) (cost : Nat) : Option Gas :=
  if cost ≤ g.remaining then some ⟨g.limit, g.remaining - cost⟩ else none

/-- Result of servicing one ECALL under gas accounting. -/
inductive SyscallOutcome (σ : Type) where
  | outOfGas (state : σ) (output : List Nat) (gas : Gas)
  | performed (state : σ) (output : List Nat) (gas : Gas)
deriving DecidableEq

/-- Modelled from the spec: the host ECALL handlers (the r55 host interposer
is not under `src/`) invoke the `syscall_gas!` macro of `r55/src/gas.rs`
before performing the host action; the macro returns an `OutOfGas`
`InterpreterResult` with output `Bytes::new()` when `record_cost` fails, and
only afterwards does the handler run the operation. -/
def syscallGas (σ : Type) (g : Gas) (cost : Nat)
    (hostAction : σ → σ × List Nat) (s : σ) : SyscallOutcome σ :=
  match recordCost g cost with
  | none => SyscallOutcome.outOfGas s [] g
  | some g' =>
    let r := hostAction s
    SyscallOutcome.performed r.1 r.2 g'

/-! ## Build orchestrator (`r55-compile/src/compile.rs`, `main.rs`) -/

/-- `CompileError` (payload strings carried where the source carries them). -/
inductive CompileError where
  | ioError (msg : String)
  | synError (msg : String)
  | tomlError (msg : String)
  | pathError (msg : String)
  | noContractFound (msg : String)
  | cyclicDependency
  | missingDeployableDependency (msg : String)
deriving DecidableEq

/-- `GeneratedContract`, restricted to the fields the sort consults. -/
structure GContract where
  name : String
  deps : List String
deriving DecidableEq

/-- The `dependency_map` of `sort_generated_contracts`: a `HashMap` filled by
iterating the contracts in order, so the last contract with a given name
wins. -/
def depLookup (cs : List GContract) (n : String) : List String :=
  match cs.reverse.find? (fun c => c.name == n) with
  | some c => c.deps
  | none => []

/-- `all_deps_sorted`: every dependency of `c` names a contract already in
the sorted list. -/
def allDepsSorted (dm : String → List String) (sorted : List GContract)
    (c : GContract) : Bool :=
  (dm c.name).all (fun d => sorted.any (fun e => e.name == d))

/-- One pass of the sorting loop (`for contract in remaining`): append each
contract whose dependencies are all sorted — checking against the sorted list
as it grows within the pass — and keep the rest in order. -/
def passOne (dm : String → List String) (sorted : List GContract) :
    List GContract → List GContract × List GContract
  | [] => (sorted, [])
  | c :: rest =>
    if allDepsSorted dm sorted c then
      passOne dm (sorted ++ [c]) rest
    else
      let p := passOne dm sorted rest
      (p.1, c :: p.2)

/-- The `while !remaining.is_empty()` loop, with a fuel argument standing in
for termination (each executed iteration strictly shrinks `remaining`, so any
fuel above the initial length is never exhausted): finish when nothing
remains; after a pass that made no progress report `CyclicDependency`;
otherwise continue. -/
def sortLoopF (dm : String → List String) :
    Nat → List GContract → List GContract →
    Except CompileError (List GContract)
  | 0, sorted, remaining =>
    if remaining.isEmpty then Except.ok sorted
    else Except.error CompileError.cyclicDependency
  | Nat.succ fuel, sorted, remaining =>
    if remaining.isEmpty then Except.ok sorted
    else
      if (passOne dm sorted remaining).2.length = remaining.length then
        Except.error CompileError.cyclicDependency
      else
        sortLoopF dm fuel (passOne dm sorted remaining).1
          (passOne dm sorted remaining).2

/-- `sort_generated_contracts`: run the loop from an empty sorted list. -/
def sort_generated_contracts (cs : List GContract) :
    Except CompileError (List GContract) :=
  sortLoopF (depLookup cs) (cs.length + 1) [] cs

/-- One dependency edge of the name graph the contracts span: `a` is the name
of a given contract and `b` is among the dependencies recorded for `a`. -/
def nameStep (cs : List GContract) (a b : String) : Prop :=
  (∃ c ∈ cs, c.name = a) ∧ b ∈ depLookup cs a

/-- The dependency graph among the given contracts has a cycle. -/
def hasCycle (cs : List GContract) : Prop :=
  ∃ n, Relation.TransGen (nameStep cs) n n

/-- Output order respects dependencies: scanning left to right, every
dependency of a contract is the name of a contract already seen. -/
def depsRespected (seen : List String) : List GContract → Bool
  | [] => true
  | c :: rest =>
    c.deps.all (fun d => seen.contains d) && depsRespected (c.name :: seen) rest

/-- Same scan phrased against an arbitrary dependency map. -/
def dmRespected (dm : String → List String) (seen : List String) :
    List GContract → Bool
  | [] => true
  | c :: rest =>
    (dm c.name).all (fun d => seen.contains d) &&
      dmRespected dm (c.name :: seen) rest

/-- Per-contract toolchain outcomes consumed by the build driver: whether the
runtime and deploy cargo builds of a contract succeed, and the deploy binary
bytes read back on success. -/
structure CompileEnv where
  runtimeOk : String → Bool
  deployOk : String → Bool
  deployBytes : String → List Nat

/-- `GeneratedContract::compile`: runtime build first (a cargo failure aborts
the process), then the deploy build, then the `0xff` tag byte in front of the
deploy binary. `none` models the nonzero process exit. -/
def compileContract (env : CompileEnv) (c : GContract) : Option (List Nat) :=
  if env.runtimeOk c.name then
    if env.deployOk c.name then
      some (compileOutput (env.deployBytes c.name))
    else none
  else none

/-- The compile-and-write loop of `main`: compile each contract in sorted
order, persisting `name.bin` with the full compiled blob after each success;
a failure aborts with exit code 1, leaving exactly the files written so
far. -/
def buildLoop (env : CompileEnv) :
    List GContract → List (String × List Nat) → Nat × List (String × List Nat)
  | [], written => (0, written)
  | c :: rest, written =>
    match compileContract env c with
    | none => (1, written)
    | some b => buildLoop env rest (written ++ [(c.name, b)])

/-- `find_r55_contract_projects`: scan the candidate directories; each
directory's `parse_contract_project` outcome is either a parsed project
(represented by the generated contracts it will contribute) or a
`CompileError` (manifest parse failure, missing `src/lib.rs`, no contract
found).  A failing directory is skipped with a debug log — the error is
swallowed, never returned — and the scan itself always succeeds with the
surviving projects. -/
def find_r55_contract_projects
    (dirs : List (Except CompileError (List GContract))) :
    List (List GContract) :=
  dirs.filterMap (fun d => match d with
    | Except.ok p => some p
    | Except.error _ => none)

/-- `main`: discover projects (per-directory parse failures are skipped, so
discovery never aborts the build), concatenate the generated contracts of
the discovered projects, sort them by dependency, then run the compile loop.
Generation-stage filesystem failures propagate as nonzero exits through `?`
but involve no `CompileError` kind and are not modelled.  Result: (process
exit code, bin files persisted in the output directory). -/
def runBuild (env : CompileEnv)
    (dirs : List (Except CompileError (List GContract))) :
    Nat × List (String × List Nat) :=
  match sort_generated_contracts (find_r55_contract_projects dirs).flatten with
  | Except.error _ => (1, [])
  | Except.ok sorted => buildLoop env sorted []

end R55

namespace R55

/-! ## Guard trace lemmas -/

theorem runOps_storage_key {V : Type} (g : GuardSt V) (ops : List (GuardOp V)) :
    (runOps g ops).1.storage_key = g.storage_key := by
  induction ops generalizing g with
  | nil => rfl
  | cons op rest ih =>
    cases op with
    | readView => simpa [runOps, guardStep] using ih g
    | mutView v => simpa [runOps, guardStep] using ih _
    | writeCall v => simpa [runOps, guardStep] using ih g

theorem runOps_dirty {V : Type} (g : GuardSt V) (ops : List (GuardOp V)) :
    (runOps g ops).1.dirty = (g.dirty || ops.any isMutOp) := by
  induction ops generalizing g with
  | nil => simp [runOps]
  | cons op rest ih =>
    cases op with
    | readView => simp [runOps, guardStep, isMutOp, ih g]
    | mutView v => simp [runOps, guardStep, isMutOp, ih]
    | writeCall v => simp [runOps, guardStep, isMutOp, ih g]

theorem runOps_sload_count {V : Type} (g : GuardSt V) (ops : List (GuardOp V)) :
    countSload (runOps g ops).2 = 0 := by
  induction ops generalizing g with
  | nil => rfl
  | cons op rest ih =>
    cases op with
    | readView => simpa [runOps, guardStep, countSload] using ih g
    | mutView v => simpa [runOps, guardStep, countSload] using ih _
    | writeCall v =>
      simpa [runOps, guardStep, countSload, isSloadEv] using ih g

theorem runOps_sstore_count {V : Type} (g : GuardSt V) (ops : List (GuardOp V)) :
    countSstore (runOps g ops).2 = countWriteOps ops := by
  induction ops generalizing g with
  | nil => rfl
  | cons op rest ih =>
    cases op with
    | readView =>
      simpa [runOps, guardStep, countSstore, countWriteOps, isWriteOp]
        using ih g
    | mutView v =>
      simpa [runOps, guardStep, countSstore, countWriteOps, isWriteOp]
        using ih _
    | writeCall v =>
      simp [runOps, guardStep, countSstore, countWriteOps, isWriteOp,
        isSstoreEv, List.filter_cons]
      simpa [countSstore, countWriteOps] using ih g

theorem runOps_readonly {V : Type} (g : GuardSt V) (ops : List (GuardOp V))
    (h : ∀ op ∈ ops, op = GuardOp.readView) : runOps g ops = (g, []) := by
  induction ops with
  | nil => rfl
  | cons op rest ih =>
    have hop := h op (by simp)
    subst hop
    have := ih (fun o ho => h o (by simp [ho]))
    simp [runOps, guardStep, this]

/-- C2: for every `MappingGuard`, the dirty flag is set iff the holder has
obtained a mutable view (`DerefMut`); on drop a single SSTORE of the cached
value is issued if and only if the dirty flag is set; and a guard that is
only read performs exactly the construction SLOAD and no SSTORE. -/
theorem mappingGuard_dirty_protocol {V : Type} (storage_key : Nat)
    (stored : V) (ops : List (GuardOp V)) :
    ((finalGuard storage_key stored ops).dirty = true ↔
      ∃ w, GuardOp.mutView w ∈ ops)
    ∧ ((finalGuard storage_key stored ops).dirty = true →
        guardDrop (finalGuard storage_key stored ops) =
          [StorageEv.sstore storage_key
            (finalGuard storage_key stored ops).value])
    ∧ ((finalGuard storage_key stored ops).dirty = false →
        guardDrop (finalGuard storage_key stored ops) = [])
    ∧ ((∀ op ∈ ops, op = GuardOp.readView) →
        guardTrace storage_key stored ops = [StorageEv.sload storage_key]) := by
  have hkey : (finalGuard storage_key stored ops).storage_key = storage_key := by
    simpa [finalGuard, MappingGuard.new] using
      runOps_storage_key (V := V) ⟨stored, storage_key, false⟩ ops
  refine ⟨?_, ?_, ?_, ?_⟩
  · rw [finalGuard, runOps_dirty]
    simp only [MappingGuard.new, Bool.false_or, List.any_eq_true]
    constructor
    · rintro ⟨op, hmem, hmut⟩
      cases op with
      | readView => simp [isMutOp] at hmut
      | mutView w => exact ⟨w, hmem⟩
      | writeCall w => simp [isMutOp] at hmut
    · rintro ⟨w, hmem⟩
      exact ⟨GuardOp.mutView w, hmem, rfl⟩
  · intro hd
    rw [guardDrop, hd, hkey]
    simp
  · intro hd
    rw [guardDrop, hd]
    simp
  · intro hro
    have hrun := runOps_readonly (V := V) ⟨stored, storage_key, false⟩ ops hro
    simp [guardTrace, MappingGuard.new, hrun, guardDrop]

/-- C2 witness: a guard read once issues exactly its construction SLOAD. -/
theorem mappingGuard_dirty_protocol_witness :
    guardTrace 5 (0 : Nat) [GuardOp.readView] = [StorageEv.sload 5] :=
  (mappingGuard_dirty_protocol 5 (0 : Nat) [GuardOp.readView]).2.2.2
    (by decide)

/-- C3 counterexample: a guard whose holder calls `MappingGuard::write` twice
issues two SSTOREs in one lifetime, so "at most one SLOAD and at most one
SSTORE per guard lifetime" fails as stated. -/
theorem mappingGuard_two_writes_cex :
    ¬ (countSload (guardTrace 0 (0 : Nat)
          [GuardOp.writeCall 1, GuardOp.writeCall 2]) ≤ 1
        ∧ countSstore (guardTrace 0 (0 : Nat)
          [GuardOp.writeCall 1, GuardOp.writeCall 2]) ≤ 1) := by
  decide

/-- C3 amended: per guard lifetime exactly one SLOAD is issued; the number of
SSTOREs equals the number of explicit `MappingGuard::write` calls plus one if
the guard is dirty at drop; in particular, a lifetime with no explicit write
call issues at most one SSTORE. -/
theorem mappingGuard_syscall_counts {V : Type} (storage_key : Nat)
    (stored : V) (ops : List (GuardOp V)) :
    countSload (guardTrace storage_key stored ops) = 1
    ∧ countSstore (guardTrace storage_key stored ops) =
        countWriteOps ops +
          (if (finalGuard storage_key stored ops).dirty then 1 else 0)
    ∧ (countWriteOps ops = 0 →
        countSstore (guardTrace storage_key stored ops) ≤ 1) := by
  have h1 : countSload (guardTrace storage_key stored ops) = 1 := by
    rw [guardTrace]
    simp only [MappingGuard.new, countSload, List.filter_append,
      List.length_append]
    have := runOps_sload_count (V := V) ⟨stored, storage_key, false⟩ ops
    rw [countSload] at this
    rw [this]
    rcases h : (runOps (⟨stored, storage_key, false⟩ : GuardSt V) ops).1.dirty
      with _ | _ <;> simp [guardDrop, h, isSloadEv, isSstoreEv]
  have h2 : countSstore (guardTrace storage_key stored ops) =
      countWriteOps ops +
        (if (finalGuard storage_key stored ops).dirty then 1 else 0) := by
    rw [guardTrace]
    simp only [MappingGuard.new, countSstore, List.filter_append,
      List.length_append]
    have hr := runOps_sstore_count (V := V) ⟨stored, storage_key, false⟩ ops
    rw [countSstore] at hr
    rw [hr, finalGuard]
    rcases h : (runOps (⟨stored, storage_key, false⟩ : GuardSt V) ops).1.dirty
      with _ | _ <;>
      simp [guardDrop, h, isSloadEv, isSstoreEv, MappingGuard.new]
  refine ⟨h1, h2, ?_⟩
  intro hz
  rw [h2, hz]
  rcases (finalGuard storage_key stored ops).dirty with _ | _ <;> simp

/-- C3 amended witness: a single mutable view yields exactly one SSTORE. -/
theorem mappingGuard_syscall_counts_witness :
    countSstore (guardTrace 3 (7 : Nat) [GuardOp.mutView 9]) ≤ 1 :=
  (mappingGuard_syscall_counts 3 (7 : Nat) [GuardOp.mutView 9]).2.2 (by decide)

end R55

namespace R55

/-- C1: the guest runtime computes a mapping slot as
`keccak256(abi_encode(key) || be_bytes(id))` — the same formula as the
host-side reference `get_mapping_slot` — and indexing a nested mapping with
`k1` yields a mapping whose id is that hash, so the inner lookup with `k2`
lands on `keccak256(abi_encode(k2) || be(keccak256(abi_encode(k1) ||
be(id))))`. -/
theorem mapping_slot_formula {K1 K2 S : Type} (keccak : List Nat → Nat)
    (enc1 : K1 → List Nat) (enc2 : K2 → List Nat) (id : Nat)
    (k1 : K1) (k2 : K2) :
    Mapping.encode_key keccak enc1 (⟨id⟩ : Mapping K1 S) k1
      = keccak (enc1 k1 ++ beBytes32 id)
    ∧ Mapping.encode_key keccak enc1 (⟨id⟩ : Mapping K1 S) k1
      = get_mapping_slot keccak (enc1 k1) id
    ∧ Mapping.encode_key keccak enc2
        (Mapping.indexNested keccak enc1
          (⟨id⟩ : Mapping K1 (Mapping K2 S)) k1) k2
      = keccak (enc2 k2 ++ beBytes32 (keccak (enc1 k1 ++ beBytes32 id))) :=
  ⟨rfl, rfl, rfl⟩

/-- C4: at `ret_size = 33` with 33 bytes of return data all equal to `0x01`,
the copy loop runs `33 / 32 = 1` chunk and leaves the 33rd byte of the guest
buffer zero, so the produced buffer does not contain the full return data
(the same holds for `staticcall_contract`). -/
theorem call_contract_drops_tail :
    call_contract (List.replicate 33 1) (some 33)
      = some (List.replicate 32 1 ++ [0])
    ∧ staticcall_contract (List.replicate 33 1) (some 33)
      = some (List.replicate 32 1 ++ [0])
    ∧ call_contract (List.replicate 33 1) (some 33)
      ≠ some (List.replicate 33 1) := by
  decide

/-- C10: `call_contract` and `staticcall_contract` return `Some` on every
input, and an empty buffer when the return-data size is zero (whether the
caller passes `Some 0` or `ReturnDataSize` reports an empty buffer). -/
theorem call_contract_total (ret : List Nat) (ret_size : Option Nat) :
    (call_contract ret ret_size).isSome = true
    ∧ (staticcall_contract ret ret_size).isSome = true
    ∧ call_contract ret (some 0) = some []
    ∧ staticcall_contract ret (some 0) = some []
    ∧ (ret = [] →
        call_contract ret none = some []
        ∧ staticcall_contract ret none = some []) := by
  refine ⟨?_, ?_, by simp [call_contract], by simp [staticcall_contract], ?_⟩
  · rw [call_contract.eq_def]
    rcases ret_size with _ | n <;> simp <;> split <;> simp
  · rw [staticcall_contract.eq_def]
    rcases ret_size with _ | n <;> simp <;> split <;> simp
  · rintro rfl
    exact ⟨by simp [call_contract], by simp [staticcall_contract]⟩

/-- C10 witness: the empty-return-buffer case yields `Some` of the empty
buffer on both paths. -/
theorem call_contract_total_witness :
    call_contract [] none = some []
    ∧ staticcall_contract [] none = some [] :=
  (call_contract_total [] none).2.2.2.2 rfl

/-- C6: `GeneratedContract::compile` output starts with the `0xff` tag, and
`Deployable::deploy` packs exactly
`0xFF || be32(runtime_len) || runtime || abi(args)`: the four segments sit at
offsets 0, 1, 5 and `5 + runtime_len`. -/
theorem initcode_tag_layout (deployBc bytecode encoded_args : List Nat) :
    (compileOutput deployBc).head? = some 0xff
    ∧ deployInitCode bytecode encoded_args
        = 0xff :: (beBytes4 bytecode.length ++ bytecode ++ encoded_args)
    ∧ (deployInitCode bytecode encoded_args).head? = some 0xff
    ∧ ((deployInitCode bytecode encoded_args).drop 1).take 4
        = beBytes4 bytecode.length
    ∧ ((deployInitCode bytecode encoded_args).drop 5).take bytecode.length
        = bytecode
    ∧ (deployInitCode bytecode encoded_args).drop (5 + bytecode.length)
        = encoded_args := by
  have hb4 : (beBytes4 bytecode.length).length = 4 := by simp [beBytes4]
  have hshape : deployInitCode bytecode encoded_args
      = 0xff :: (beBytes4 bytecode.length ++ (bytecode ++ encoded_args)) := by
    simp [deployInitCode]
  refine ⟨rfl, by simp [deployInitCode], by rw [hshape]; rfl, ?_, ?_, ?_⟩
  · rw [hshape, List.drop_succ_cons, List.drop_zero, List.take_left' hb4]
  · have : (5 : Nat) = 1 + 4 := rfl
    rw [hshape, this, ← List.drop_drop, List.drop_succ_cons, List.drop_zero,
      List.drop_left' hb4, List.take_left' rfl]
  · have h5 : 5 + bytecode.length = (4 + bytecode.length) + 1 := by omega
    rw [hshape, h5, List.drop_succ_cons, ← List.drop_drop,
      List.drop_left' hb4, List.drop_left' rfl]

/-- C7: when the gas cost of a syscall exceeds the remaining budget, the
frame terminates with `OutOfGas` and an empty output, the interpreter state
is untouched (the host action is not performed) and no gas is deducted. -/
theorem syscall_gas_out_of_gas (σ : Type) (g : Gas) (cost : Nat)
    (hostAction : σ → σ × List Nat) (s : σ) (h : g.remaining < cost) :
    syscallGas σ g cost hostAction s = SyscallOutcome.outOfGas s [] g := by
  rw [syscallGas, recordCost, if_neg (by omega)]

/-- C7 witness: a 5-gas charge against 3 remaining gas is rejected without
running the host action. -/
theorem syscall_gas_out_of_gas_witness :
    syscallGas Nat ⟨10, 3⟩ 5 (fun n => (n + 1, [7])) 0
      = SyscallOutcome.outOfGas 0 [] ⟨10, 3⟩ :=
  syscall_gas_out_of_gas Nat ⟨10, 3⟩ 5 (fun n => (n + 1, [7])) 0 (by decide)

end R55


namespace R55

/-! ## Byte-arithmetic lemmas -/

theorem beToNat_go (bs : List Nat) (acc : Nat) :
    bs.foldl (fun acc b => acc * 256 + b) acc
      = acc * 256 ^ bs.length + beToNat bs := by
  induction bs generalizing acc with
  | nil => simp [beToNat]
  | cons b t ih =>
    have hbt : beToNat (b :: t) = b * 256 ^ t.length + beToNat t := by
      rw [beToNat, List.foldl_cons]
      simpa using ih b
    rw [List.foldl_cons, ih, hbt, List.length_cons, Nat.pow_succ]
    ring

theorem beToNat_append (xs ys : List Nat) :
    beToNat (xs ++ ys) = beToNat xs * 256 ^ ys.length + beToNat ys := by
  rw [beToNat, List.foldl_append, beToNat_go]
  rfl

theorem beToNat_cons (b : Nat) (t : List Nat) :
    beToNat (b :: t) = b * 256 ^ t.length + beToNat t := by
  rw [beToNat, List.foldl_cons]
  simpa using beToNat_go t b

theorem beToNat_lt (bs : List Nat) (hb : ∀ b ∈ bs, b < 256) :
    beToNat bs < 256 ^ bs.length := by
  induction bs with
  | nil => simp [beToNat]
  | cons b t ih =>
    have hbb : b < 256 := hb b (by simp)
    have ht := ih (fun x hx => hb x (by simp [hx]))
    rw [beToNat_cons]
    calc b * 256 ^ t.length + beToNat t
        < b * 256 ^ t.length + 256 ^ t.length := by omega
      _ = (b + 1) * 256 ^ t.length := by ring
      _ ≤ 256 * 256 ^ t.length := Nat.mul_le_mul_right _ (by omega)
      _ = 256 ^ (b :: t).length := by rw [List.length_cons, Nat.pow_succ]; ring

theorem beToNat_replicate_zero (n : Nat) :
    beToNat (List.replicate n 0) = 0 := by
  induction n with
  | zero => rfl
  | succ k ih => simpa [List.replicate_succ, beToNat_cons] using ih

theorem be_digit_extract (A b R d : Nat) (hd : 0 < d) (hb : b < 256)
    (hR : R < d) : (A * (d * 256) + (b * d + R)) / d % 256 = b := by
  have h1 : A * (d * 256) + (b * d + R) = d * (A * 256 + b) + R := by ring
  rw [h1, Nat.mul_add_div hd, Nat.div_eq_of_lt hR, Nat.add_zero,
    Nat.mul_comm A 256, Nat.mul_add_mod, Nat.mod_eq_of_lt hb]

theorem beBytes8_beToNat (bs : List Nat) (hlen : bs.length = 8)
    (hb : ∀ b ∈ bs, b < 256) : beBytes8 (beToNat bs) = bs := by
  apply List.ext_getElem
  · simp [beBytes8, hlen]
  intro i h1 h2
  have hi : i < 8 := by simpa [beBytes8] using h1
  have hL : (beBytes8 (beToNat bs))[i]
      = beToNat bs / 2 ^ (8 * (7 - i)) % 256 := by
    simp [beBytes8]
  rw [hL]
  have hdrop : bs.drop i = bs[i] :: bs.drop (i + 1) :=
    List.drop_eq_getElem_cons (by omega)
  have hsplit : bs = bs.take i ++ (bs[i] :: bs.drop (i + 1)) := by
    rw [← hdrop, List.take_append_drop]
  have hld : (bs.drop (i + 1)).length = 7 - i := by
    rw [List.length_drop, hlen]
    omega
  have hv : beToNat bs
      = beToNat (bs.take i) * (256 ^ (7 - i) * 256)
        + (bs[i] * 256 ^ (7 - i) + beToNat (bs.drop (i + 1))) := by
    conv_lhs => rw [hsplit]
    rw [beToNat_append, beToNat_cons, List.length_cons, hld, Nat.pow_succ]
  have hpow : (2 : Nat) ^ (8 * (7 - i)) = 256 ^ (7 - i) := by
    rw [Nat.pow_mul]
  have hRlt : beToNat (bs.drop (i + 1)) < 256 ^ (7 - i) := by
    have := beToNat_lt (bs.drop (i + 1))
      (fun x hx => hb x (List.drop_subset _ _ hx))
    rwa [hld] at this
  have hblt : bs[i] < 256 := hb _ (List.getElem_mem h2)
  rw [hv, hpow]
  exact be_digit_extract _ _ _ _ (Nat.pos_pow_of_pos _ (by omega)) hblt hRlt

theorem limbs3_extract (t m l : Nat) (ht : t < 2 ^ 64) (hm : m < 2 ^ 64)
    (hl : l < 2 ^ 64) :
    (t * 2 ^ 128 + m * 2 ^ 64 + l) % 2 ^ 64 = l
    ∧ (t * 2 ^ 128 + m * 2 ^ 64 + l) / 2 ^ 64 % 2 ^ 64 = m
    ∧ (t * 2 ^ 128 + m * 2 ^ 64 + l) / 2 ^ 128 % 2 ^ 64 = t := by
  have hp64 : (0 : Nat) < 2 ^ 64 := by positivity
  have hp128 : (0 : Nat) < 2 ^ 128 := by positivity
  have e1 : t * 2 ^ 128 + m * 2 ^ 64 + l
      = 2 ^ 64 * (t * 2 ^ 64 + m) + l := by ring
  have e2 : t * 2 ^ 128 + m * 2 ^ 64 + l
      = 2 ^ 128 * t + (m * 2 ^ 64 + l) := by ring
  have hsmall : m * 2 ^ 64 + l < 2 ^ 128 := by
    calc m * 2 ^ 64 + l < m * 2 ^ 64 + 2 ^ 64 := by omega
      _ = (m + 1) * 2 ^ 64 := by ring
      _ ≤ 2 ^ 64 * 2 ^ 64 := Nat.mul_le_mul_right _ (by omega)
      _ = 2 ^ 128 := by norm_num
  refine ⟨?_, ?_, ?_⟩
  · rw [e1, Nat.mul_add_mod, Nat.mod_eq_of_lt hl]
  · rw [e1, Nat.mul_add_div hp64, Nat.div_eq_of_lt hl, Nat.add_zero,
      Nat.mul_comm t, Nat.mul_add_mod, Nat.mod_eq_of_lt hm]
  · rw [e2, Nat.mul_add_div hp128, Nat.div_eq_of_lt hsmall, Nat.add_zero,
      Nat.mod_eq_of_lt ht]

/-- C8 counterexample: with output registers `(first, second, third) =
(1, 0, 0)`, the address `create` reconstructs differs from the address that
the little-endian-limb ordering (the one `call` uses for its address
argument) would give, so `create` does not use "the same limb ordering". -/
theorem createAddress_not_limb_order :
    createAddress 1 0 0 ≠ specLimbAddress 1 0 0 := by
  decide

/-- C8 amended: `call`/`staticcall` pass the address argument in `a0..a2` as
the first three little-endian 64-bit limbs of its 256-bit word — numerically
the big-endian values of address bytes 12..20, 4..12 and 0..4 — while
`create` reconstructs the returned address in big-endian chunk order: the 8
bytes of `a0` become address bytes 0..8, the 8 bytes of `a1` bytes 8..16,
and the most-significant 4 bytes of `a2` bytes 16..20. -/
theorem addr_reg_marshalling (a : List Nat) (hlen : a.length = 20)
    (hb : ∀ b ∈ a, b < 256) :
    callAddrRegs a
      = (beToNat (a.drop 12), beToNat ((a.drop 4).take 8),
          beToNat (a.take 4))
    ∧ createAddress (beToNat (a.take 8)) (beToNat ((a.drop 8).take 8))
        (beToNat (a.drop 16) * 2 ^ 32) = a := by
  constructor
  · have hword : beToNat (addrWord a) = beToNat a := by
      rw [addrWord, beToNat_append, beToNat_replicate_zero]
      simp
    have hmid : a.drop 4 = (a.drop 4).take 8 ++ a.drop 12 := by
      conv_lhs => rw [← List.take_append_drop 8 (a.drop 4)]
      rw [List.drop_drop]
    have hlt4 : (a.take 4).length = 4 := by
      rw [List.length_take, hlen]
      rfl
    have hlm8 : ((a.drop 4).take 8).length = 8 := by
      rw [List.length_take, List.length_drop, hlen]
      rfl
    have hll8 : (a.drop 12).length = 8 := by
      rw [List.length_drop, hlen]
    have hv : beToNat a
        = beToNat (a.take 4) * 2 ^ 128
          + beToNat ((a.drop 4).take 8) * 2 ^ 64 + beToNat (a.drop 12) := by
      conv_lhs => rw [← List.take_append_drop 4 a]
      rw [beToNat_append]
      have hl16 : (a.drop 4).length = 16 := by rw [List.length_drop, hlen]
      rw [hl16]
      conv_lhs => rw [hmid]
      rw [beToNat_append, hll8]
      have hp1 : (256 : Nat) ^ 16 = 2 ^ 128 := by norm_num
      have hp2 : (256 : Nat) ^ 8 = 2 ^ 64 := by norm_num
      rw [hp1, hp2]
      ring
    have ht : beToNat (a.take 4) < 2 ^ 64 := by
      have := beToNat_lt (a.take 4)
        (fun x hx => hb x (List.take_subset _ _ hx))
      rw [hlt4] at this
      calc beToNat (a.take 4) < 256 ^ 4 := this
        _ ≤ 2 ^ 64 := by norm_num
    have hm : beToNat ((a.drop 4).take 8) < 2 ^ 64 := by
      have := beToNat_lt ((a.drop 4).take 8)
        (fun x hx => hb x (List.drop_subset _ _ (List.take_subset _ _ hx)))
      rw [hlm8] at this
      calc beToNat ((a.drop 4).take 8) < 256 ^ 8 := this
        _ ≤ 2 ^ 64 := by norm_num
    have hl : beToNat (a.drop 12) < 2 ^ 64 := by
      have := beToNat_lt (a.drop 12)
        (fun x hx => hb x (List.drop_subset _ _ hx))
      rw [hll8] at this
      calc beToNat (a.drop 12) < 256 ^ 8 := this
        _ ≤ 2 ^ 64 := by norm_num
    obtain ⟨e1, e2, e3⟩ := limbs3_extract _ _ _ ht hm hl
    rw [callAddrRegs, hword, hv]
    simp only [Prod.mk.injEq]
    exact ⟨e1, e2, e3⟩
  · have h8 : (a.take 8).length = 8 := by
      rw [List.length_take, hlen]
      rfl
    have h88 : ((a.drop 8).take 8).length = 8 := by
      rw [List.length_take, List.length_drop, hlen]
      rfl
    have h16 : (a.drop 16).length = 4 := by rw [List.length_drop, hlen]
    have hc3 : beToNat (a.drop 16) * 2 ^ 32
        = beToNat (a.drop 16 ++ List.replicate 4 0) := by
      rw [beToNat_append, beToNat_replicate_zero]
      simp
    have hrt3 : beBytes8 (beToNat (a.drop 16 ++ List.replicate 4 0))
        = a.drop 16 ++ List.replicate 4 0 := by
      apply beBytes8_beToNat
      · rw [List.length_append, h16, List.length_replicate]
      · intro b hbm
        rcases List.mem_append.1 hbm with h | h
        · exact hb b (List.drop_subset _ _ h)
        · simp at h
          omega
    have hsplit2 : a.take 8 ++ ((a.drop 8).take 8 ++ a.drop 16) = a := by
      have h1 : (8 : Nat) + 8 = 16 := rfl
      conv_rhs => rw [← List.take_append_drop 8 a]
      conv_rhs =>
        rw [← List.take_append_drop 8 (a.drop 8), List.drop_drop, h1]
    rw [createAddress,
      beBytes8_beToNat (a.take 8) h8
        (fun x hx => hb x (List.take_subset _ _ hx)),
      beBytes8_beToNat ((a.drop 8).take 8) h88
        (fun x hx => hb x (List.drop_subset _ _ (List.take_subset _ _ hx))),
      hc3, hrt3, List.take_left' h16, List.append_assoc]
    exact hsplit2

/-- C8 amended witness: the concrete address with bytes `0, 1, …, 19`. -/
theorem addr_reg_marshalling_witness :
    (List.range 20).length = 20
    ∧ (∀ b ∈ List.range 20, b < 256)
    ∧ (callAddrRegs (List.range 20)
        = (beToNat ((List.range 20).drop 12),
            beToNat (((List.range 20).drop 4).take 8),
            beToNat ((List.range 20).take 4))
      ∧ createAddress (beToNat ((List.range 20).take 8))
          (beToNat (((List.range 20).drop 8).take 8))
          (beToNat ((List.range 20).drop 16) * 2 ^ 32) = List.range 20) :=
  ⟨by decide, by decide,
    addr_reg_marshalling (List.range 20) (by decide) (by decide)⟩

end R55

namespace R55

/-! ## Sorting-pass lemmas -/

theorem passOne_perm (dm : String → List String) (s r : List GContract) :
    ((passOne dm s r).1 ++ (passOne dm s r).2).Perm (s ++ r) := by
  induction r generalizing s with
  | nil => simp [passOne]
  | cons c rest ih =>
    rw [passOne]
    by_cases h : allDepsSorted dm s c = true
    · rw [if_pos h]
      have := ih (s ++ [c])
      calc ((passOne dm (s ++ [c]) rest).1 ++ (passOne dm (s ++ [c]) rest).2)
          |>.Perm ((s ++ [c]) ++ rest) := this
        _ = s ++ c :: rest := by simp
    · rw [if_neg h]
      have h1 : ((passOne dm s rest).1 ++ c :: (passOne dm s rest).2).Perm
          (c :: ((passOne dm s rest).1 ++ (passOne dm s rest).2)) :=
        List.perm_middle
      have h2 : (c :: ((passOne dm s rest).1 ++ (passOne dm s rest).2)).Perm
          (c :: (s ++ rest)) := (ih s).cons c
      have h3 : (c :: (s ++ rest)).Perm (s ++ c :: rest) :=
        List.perm_middle.symm
      exact (h1.trans h2).trans h3

theorem passOne_snd_sublist (dm : String → List String)
    (s r : List GContract) : (passOne dm s r).2.Sublist r := by
  induction r generalizing s with
  | nil => simp [passOne]
  | cons c rest ih =>
    rw [passOne]
    by_cases h : allDepsSorted dm s c = true
    · rw [if_pos h]
      exact (ih (s ++ [c])).cons c
    · rw [if_neg h]
      exact (ih s).cons₂ c

theorem passOne_stuck (dm : String → List String) (s r : List GContract)
    (h : (passOne dm s r).2.length = r.length) :
    (passOne dm s r).1 = s ∧ (passOne dm s r).2 = r
      ∧ ∀ c ∈ r, allDepsSorted dm s c = false := by
  induction r generalizing s with
  | nil => exact ⟨rfl, rfl, by simp⟩
  | cons c rest ih =>
    rw [passOne] at h ⊢
    by_cases hc : allDepsSorted dm s c = true
    · rw [if_pos hc] at h
      have hle := (passOne_snd_sublist dm (s ++ [c]) rest).length_le
      rw [h] at hle
      simp at hle
    · rw [if_neg hc] at h ⊢
      have hlen : (passOne dm s rest).2.length = rest.length := by
        simpa using h
      obtain ⟨h1, h2, h3⟩ := ih s hlen
      refine ⟨h1, by simp [h2], ?_⟩
      intro x hx
      rcases List.mem_cons.1 hx with rfl | hx
      · simpa using hc
      · exact h3 x hx

theorem allDepsSorted_iff (dm : String → List String) (s : List GContract)
    (c : GContract) :
    allDepsSorted dm s c = true ↔ ∀ d ∈ dm c.name, ∃ e ∈ s, e.name = d := by
  simp [allDepsSorted]

/-! ## A finite set where every node has an internal successor has a cycle -/

theorem cycle_of_endo (step : String → String → Prop) (L : List String)
    (hne : L ≠ []) (h : ∀ n ∈ L, ∃ d, d ∈ L ∧ step n d) :
    ∃ m, Relation.TransGen step m m := by
  classical
  let f : Nat → {x // x ∈ L} := fun i =>
    Nat.rec ⟨L.head hne, List.head_mem hne⟩
      (fun _ prev =>
        ⟨(h prev.1 prev.2).choose, (h prev.1 prev.2).choose_spec.1⟩) i
  have hstep : ∀ i, step (f i).1 (f (i + 1)).1 := fun i =>
    (h (f i).1 (f i).2).choose_spec.2
  have hchain : ∀ j i, i < j → Relation.TransGen step (f i).1 (f j).1 := by
    intro j
    induction j with
    | zero => omega
    | succ k ihk =>
      intro i hij
      rcases Nat.lt_succ_iff_lt_or_eq.1 hij with h' | h'
      · exact (ihk i h').tail (hstep k)
      · subst h'
        exact Relation.TransGen.single (hstep i)
  have hfin : Finite {x // x ∈ L} := (L.finite_toSet).to_subtype
  obtain ⟨i, j, hij, heq⟩ := Finite.exists_ne_map_eq_of_infinite f
  rcases lt_or_gt_of_ne hij with h' | h'
  · refine ⟨(f j).1, ?_⟩
    have := hchain j i h'
    rw [heq] at this
    exact this
  · refine ⟨(f j).1, ?_⟩
    have := hchain i j h'
    rw [heq] at this
    exact this

/-! ## Dependency-map lookup under distinct names -/

theorem find?_eq_some_of_unique {α : Type} (p : α → Bool) (l : List α)
    (c : α) (hc : c ∈ l) (hpc : p c = true)
    (huniq : ∀ x ∈ l, p x = true → x = c) : l.find? p = some c := by
  induction l with
  | nil => simp at hc
  | cons a t ih =>
    by_cases hpa : p a = true
    · have : a = c := huniq a (by simp) hpa
      subst this
      simp [List.find?, hpa]
    · have hac : c ≠ a := by
        intro h
        subst h
        exact hpa hpc
      have hct : c ∈ t := by
        rcases List.mem_cons.1 hc with h | h
        · exact absurd h hac
        · assumption
      rw [List.find?]
      rw [Bool.of_not_eq_true hpa]
      exact ih hct (fun x hx hpx => huniq x (by simp [hx]) hpx)

theorem depLookup_eq_of_nodup (cs : List GContract)
    (hnd : (cs.map GContract.name).Nodup) (c : GContract) (hc : c ∈ cs) :
    depLookup cs c.name = c.deps := by
  have hinj : ∀ x ∈ cs, ∀ y ∈ cs, x.name = y.name → x = y :=
    List.inj_on_of_nodup_map hnd
  have hfind : cs.reverse.find? (fun e => e.name == c.name) = some c := by
    apply find?_eq_some_of_unique
    · simpa using hc
    · simp
    · intro x hx hpx
      exact hinj x (by simpa using hx) c hc (by simpa using hpx)
  rw [depLookup, hfind]

end R55

namespace R55

/-! ## Order and cycle invariants of the sorting pass -/

theorem dmRespected_append (dm : String → List String) (seen : List String)
    (xs ys : List GContract) :
    dmRespected dm seen (xs ++ ys)
      = (dmRespected dm seen xs &&
          dmRespected dm ((xs.map GContract.name).reverse ++ seen) ys) := by
  induction xs generalizing seen with
  | nil => simp [dmRespected]
  | cons c t ih =>
    simp only [List.cons_append, dmRespected, List.append_eq,
      ih (c.name :: seen), List.map_cons, List.reverse_cons,
      List.append_assoc, List.singleton_append, List.nil_append,
      Bool.and_assoc]

theorem passOne_ordered (dm : String → List String) (r s : List GContract)
    (hs : dmRespected dm [] s = true) :
    dmRespected dm [] (passOne dm s r).1 = true := by
  induction r generalizing s with
  | nil => simpa [passOne] using hs
  | cons c rest ih =>
    rw [passOne]
    by_cases hc : allDepsSorted dm s c = true
    · rw [if_pos hc]
      apply ih
      have hall : ∀ d ∈ dm c.name, ∃ e ∈ s, e.name = d :=
        (allDepsSorted_iff dm s c).1 hc
      rw [dmRespected_append, hs]
      simp only [Bool.true_and, dmRespected, Bool.and_true]
      rw [List.all_eq_true]
      intro d hd
      obtain ⟨e, he, hen⟩ := hall d hd
      simp only [List.append_nil]
      have hmem : d ∈ (s.map GContract.name).reverse := by
        simp only [List.mem_reverse, List.mem_map]
        exact ⟨e, he, hen⟩
      simpa using hmem
    · rw [if_neg hc]
      exact ih s hs

theorem passOne_noCyc (cs : List GContract) (r s : List GContract)
    (hs : ∀ c ∈ s, ¬ Relation.TransGen (nameStep cs) c.name c.name) :
    ∀ c ∈ (passOne (depLookup cs) s r).1,
      ¬ Relation.TransGen (nameStep cs) c.name c.name := by
  induction r generalizing s with
  | nil =>
    intro c hcm
    rw [passOne] at hcm
    exact hs c hcm
  | cons c rest ih =>
    rw [passOne]
    by_cases hc : allDepsSorted (depLookup cs) s c = true
    · rw [if_pos hc]
      apply ih
      intro x hx
      rcases List.mem_append.1 hx with hx | hx
      · exact hs x hx
      · have hxc : x = c := by simpa using hx
        subst hxc
        intro hcyc
        obtain ⟨d, hd1, hd2⟩ := Relation.TransGen.head'_iff.1 hcyc
        have hdm : d ∈ depLookup cs x.name := hd1.2
        obtain ⟨e, he, hen⟩ := (allDepsSorted_iff _ s x).1 hc d hdm
        have hdc : Relation.TransGen (nameStep cs) d d :=
          Relation.TransGen.tail' hd2 hd1
        rw [← hen] at hdc
        exact hs e he hdc
    · rw [if_neg hc]
      exact ih s hs

end R55

namespace R55

/-! ## Loop-level lemmas for the dependency sort -/

theorem sortLoopF_ok_perm (dm : String → List String) :
    ∀ (fuel : Nat) (s r out : List GContract),
      sortLoopF dm fuel s r = Except.ok out → out.Perm (s ++ r) := by
  intro fuel
  induction fuel with
  | zero =>
    intro s r out h
    rw [sortLoopF] at h
    split at h
    · cases h
      have hr : r = [] := by simpa using ‹r.isEmpty = true›
      subst hr
      simp
    · cases h
  | succ fuel ih =>
    intro s r out h
    rw [sortLoopF] at h
    split at h
    · cases h
      have hr : r = [] := by simpa using ‹r.isEmpty = true›
      subst hr
      simp
    · split at h
      · cases h
      · exact (ih _ _ _ h).trans (passOne_perm dm s r)

theorem sortLoopF_ok_ordered (dm : String → List String) :
    ∀ (fuel : Nat) (s r out : List GContract),
      dmRespected dm [] s = true → sortLoopF dm fuel s r = Except.ok out →
      dmRespected dm [] out = true := by
  intro fuel
  induction fuel with
  | zero =>
    intro s r out hs h
    rw [sortLoopF] at h
    split at h
    · cases h
      exact hs
    · cases h
  | succ fuel ih =>
    intro s r out hs h
    rw [sortLoopF] at h
    split at h
    · cases h
      exact hs
    · split at h
      · cases h
      · exact ih _ _ _ (passOne_ordered dm r s hs) h

theorem sortLoopF_ok_noCyc (cs : List GContract) :
    ∀ (fuel : Nat) (s r out : List GContract),
      (∀ c ∈ s, ¬ Relation.TransGen (nameStep cs) c.name c.name) →
      sortLoopF (depLookup cs) fuel s r = Except.ok out →
      ∀ c ∈ out, ¬ Relation.TransGen (nameStep cs) c.name c.name := by
  intro fuel
  induction fuel with
  | zero =>
    intro s r out hs h
    rw [sortLoopF] at h
    split at h
    · cases h
      exact hs
    · cases h
  | succ fuel ih =>
    intro s r out hs h
    rw [sortLoopF] at h
    split at h
    · cases h
      exact hs
    · split at h
      · cases h
      · exact ih _ _ _ (passOne_noCyc cs r s hs) h

theorem stuck_gives_cycle (cs s r : List GContract)
    (hnd : (cs.map GContract.name).Nodup)
    (hdeps : ∀ c ∈ cs, ∀ d ∈ c.deps, ∃ e ∈ cs, e.name = d)
    (hperm : (s ++ r).Perm cs) (hne : r ≠ [])
    (hstuck : ∀ c ∈ r, allDepsSorted (depLookup cs) s c = false) :
    hasCycle cs := by
  have hendo : ∀ n ∈ r.map GContract.name,
      ∃ d, d ∈ r.map GContract.name ∧ nameStep cs n d := by
    intro n hn
    obtain ⟨c, hc, rfl⟩ := List.mem_map.1 hn
    have hccs : c ∈ cs := hperm.subset (List.mem_append.2 (Or.inr hc))
    have hnotall : ¬ ∀ d ∈ depLookup cs c.name, ∃ e ∈ s, e.name = d := by
      intro hall
      have := (allDepsSorted_iff (depLookup cs) s c).2 hall
      rw [hstuck c hc] at this
      cases this
    push_neg at hnotall
    obtain ⟨d, hd, hnos⟩ := hnotall
    have hdl : depLookup cs c.name = c.deps :=
      depLookup_eq_of_nodup cs hnd c hccs
    have hddeps : d ∈ c.deps := by rwa [hdl] at hd
    obtain ⟨e, he, hen⟩ := hdeps c hccs d hddeps
    have her : e ∈ s ++ r := hperm.symm.subset he
    rcases List.mem_append.1 her with hes | herr
    · exact absurd hen (hnos e hes)
    · refine ⟨d, ?_, ⟨c, hccs, rfl⟩, hd⟩
      rw [← hen]
      exact List.mem_map_of_mem GContract.name herr
  obtain ⟨m, hm⟩ := cycle_of_endo (nameStep cs) (r.map GContract.name)
    (by simpa using hne) hendo
  exact ⟨m, hm⟩

theorem sortLoopF_error_cycle (cs : List GContract)
    (hnd : (cs.map GContract.name).Nodup)
    (hdeps : ∀ c ∈ cs, ∀ d ∈ c.deps, ∃ e ∈ cs, e.name = d) :
    ∀ (fuel : Nat) (s r : List GContract), r.length < fuel →
      (s ++ r).Perm cs →
      ∀ e, sortLoopF (depLookup cs) fuel s r = Except.error e →
      hasCycle cs := by
  intro fuel
  induction fuel with
  | zero =>
    intro s r hlen
    omega
  | succ fuel ih =>
    intro s r hlen hperm e h
    rw [sortLoopF] at h
    split at h
    · cases h
    · rename_i hne
      have hrne : r ≠ [] := by simpa using hne
      split at h
      · rename_i hstuckLen
        obtain ⟨_, _, hstuck⟩ :=
          passOne_stuck (depLookup cs) s r hstuckLen
        exact stuck_gives_cycle cs s r hnd hdeps hperm hrne hstuck
      · rename_i hprog
        have hsub := passOne_snd_sublist (depLookup cs) s r
        have hlt : (passOne (depLookup cs) s r).2.length < r.length :=
          lt_of_le_of_ne hsub.length_le hprog
        exact ih _ _ (by omega)
          ((passOne_perm (depLookup cs) s r).trans hperm) e h

end R55

namespace R55

theorem dmRespected_eq_depsRespected (dm : String → List String)
    (l : List GContract) (h : ∀ c ∈ l, dm c.name = c.deps) :
    ∀ seen, dmRespected dm seen l = depsRespected seen l := by
  induction l with
  | nil => intro seen; rfl
  | cons c t ih =>
    intro seen
    rw [dmRespected, depsRespected, h c (by simp),
      ih (fun x hx => h x (by simp [hx])) (c.name :: seen)]

/-- C5 counterexample: a single contract whose dependency list names a
contract that is not among the given ones makes `sort_generated_contracts`
error although the dependency graph among the given contracts has no
cycle. -/
theorem sort_error_without_cycle_cex :
    (∃ e, sort_generated_contracts [⟨"a", ["b"]⟩] = Except.error e)
    ∧ ¬ hasCycle [⟨"a", ["b"]⟩] := by
  constructor
  · exact ⟨CompileError.cyclicDependency, rfl⟩
  · rintro ⟨n, hn⟩
    obtain ⟨d, hd1, hd2⟩ := Relation.TransGen.head'_iff.1 hn
    obtain ⟨⟨c, hc, hcn⟩, hdep⟩ := hd1
    have hcname : c = ⟨"a", ["b"]⟩ := by simpa using hc
    subst hcname
    have hna : n = "a" := by rw [← hcn]
    subst hna
    have hdb : d = "b" := by
      have : depLookup [⟨"a", ["b"]⟩] "a" = ["b"] := rfl
      rw [this] at hdep
      simpa using hdep
    subst hdb
    obtain ⟨x, hx1, hx2⟩ := Relation.TransGen.head'_iff.1
      (Relation.TransGen.tail' hd2 ⟨⟨_, hc, rfl⟩, hdep⟩)
    obtain ⟨⟨c', hc', hcn'⟩, hdep'⟩ := hx1
    have hc'name : c' = ⟨"a", ["b"]⟩ := by simpa using hc'
    subst hc'name
    have : ("b" : String) = "a" := by rw [← hcn']
    simp at this

/-- C5 amended: for contracts with pairwise-distinct names whose dependency
lists only name given contracts, `sort_generated_contracts` returns a
permutation of its input in which every contract's dependencies precede it,
and it errors iff the dependency graph among the given contracts has a
cycle; a dependency naming no given contract additionally causes an error
even without a cycle. -/
theorem sort_generated_contracts_spec (cs : List GContract)
    (hnd : (cs.map GContract.name).Nodup)
    (hdeps : ∀ c ∈ cs, ∀ d ∈ c.deps, ∃ e ∈ cs, e.name = d) :
    (∀ out, sort_generated_contracts cs = Except.ok out →
      out.Perm cs ∧ depsRespected [] out = true)
    ∧ ((∃ e, sort_generated_contracts cs = Except.error e) ↔ hasCycle cs) := by
  have hok : ∀ out, sort_generated_contracts cs = Except.ok out →
      out.Perm cs ∧ depsRespected [] out = true := by
    intro out h
    have hperm : out.Perm cs := by
      simpa using sortLoopF_ok_perm (depLookup cs) (cs.length + 1) [] cs out h
    refine ⟨hperm, ?_⟩
    have hordered : dmRespected (depLookup cs) [] out = true :=
      sortLoopF_ok_ordered (depLookup cs) (cs.length + 1) [] cs out rfl h
    rwa [dmRespected_eq_depsRespected (depLookup cs) out
      (fun c hc => depLookup_eq_of_nodup cs hnd c (hperm.subset hc)) []]
      at hordered
  refine ⟨hok, ?_, ?_⟩
  · rintro ⟨e, he⟩
    exact sortLoopF_error_cycle cs hnd hdeps (cs.length + 1) [] cs
      (by omega) (by simp) e he
  · intro hcyc
    rcases hres : sort_generated_contracts cs with e | out
    · exact ⟨e, rfl⟩
    · exfalso
      obtain ⟨n, hn⟩ := hcyc
      obtain ⟨d, hd1, hd2⟩ := Relation.TransGen.head'_iff.1 hn
      obtain ⟨⟨c, hc, hcn⟩, _⟩ := hd1
      have hnoc := sortLoopF_ok_noCyc cs (cs.length + 1) [] cs out
        (by simp) hres c ((hok out hres).1.symm.subset hc)
      rw [hcn] at hnoc
      exact hnoc hn

/-- C5 amended witness: two contracts, the second depending on the first,
sort successfully into dependency order. -/
theorem sort_generated_contracts_spec_witness :
    ((([⟨"b", ["a"]⟩, ⟨"a", []⟩] : List GContract).map GContract.name).Nodup
    ∧ (∀ c ∈ ([⟨"b", ["a"]⟩, ⟨"a", []⟩] : List GContract), ∀ d ∈ c.deps,
        ∃ e ∈ ([⟨"b", ["a"]⟩, ⟨"a", []⟩] : List GContract), e.name = d))
    ∧ ((∀ out, sort_generated_contracts [⟨"b", ["a"]⟩, ⟨"a", []⟩]
          = Except.ok out →
        out.Perm [⟨"b", ["a"]⟩, ⟨"a", []⟩] ∧ depsRespected [] out = true)
      ∧ ((∃ e, sort_generated_contracts [⟨"b", ["a"]⟩, ⟨"a", []⟩]
            = Except.error e)
          ↔ hasCycle [⟨"b", ["a"]⟩, ⟨"a", []⟩])) :=
  ⟨⟨by decide, by decide⟩,
    sort_generated_contracts_spec [⟨"b", ["a"]⟩, ⟨"a", []⟩]
      (by decide) (by decide)⟩

end R55

namespace R55

/-! ## Build-driver lemmas -/

theorem compileContract_name (env : CompileEnv) (c : GContract) :
    compileContract env c = compileContract env ⟨c.name, []⟩ := rfl

theorem buildLoop_files (env : CompileEnv) :
    ∀ (l : List GContract) (w : List (String × List Nat)),
      ∀ p ∈ (buildLoop env l w).2,
        p ∈ w ∨ compileContract env ⟨p.1, []⟩ = some p.2 := by
  intro l
  induction l with
  | nil =>
    intro w p hp
    exact Or.inl hp
  | cons c rest ih =>
    intro w p hp
    rw [buildLoop] at hp
    rcases hcc : compileContract env c with _ | b
    · rw [hcc] at hp
      exact Or.inl hp
    · rw [hcc] at hp
      rcases ih (w ++ [(c.name, b)]) p hp with hw | hgood
      · rcases List.mem_append.1 hw with hw | hw
        · exact Or.inl hw
        · right
          have hpb : p = (c.name, b) := by simpa using hw
          subst hpb
          rw [← compileContract_name]
          exact hcc
      · exact Or.inr hgood

theorem buildLoop_fail (env : CompileEnv) :
    ∀ (l : List GContract) (w : List (String × List Nat)) (c : GContract),
      c ∈ l → compileContract env c = none → (buildLoop env l w).1 = 1 := by
  intro l
  induction l with
  | nil =>
    intro w c hc
    simp at hc
  | cons a rest ih =>
    intro w c hc hfail
    rw [buildLoop]
    rcases hca : compileContract env a with _ | b
    · rfl
    · rcases List.mem_cons.1 hc with rfl | hc
      · rw [hca] at hfail
        cases hfail
      · exact ih (w ++ [(a.name, b)]) c hc hfail

/-- C9 counterexample: a candidate directory whose manifest fails to parse
is silently skipped by `find_r55_contract_projects`, so a build whose only
directory has a manifest parse error exits 0 with no bin files — it does
not terminate with a nonzero exit code as the claim states. -/
theorem build_swallows_parse_error_cex :
    runBuild ⟨fun _ => true, fun _ => true, fun _ => []⟩
        [Except.error (CompileError.tomlError "bad manifest")]
      = (0, []) := rfl

/-- C9 amended: discovery-stage errors (manifest parse failure, missing
source, no contract found) do not terminate the build — the directory is
skipped with a debug log, leaving no trace in the discovered projects —
and `MissingDeployableDependency` is never raised by the source.  A
cyclic-dependency error from the sort and a sub-compile failure do exit
nonzero; and in every case each bin file persisted in the output directory
is the complete `0xff`-tagged deploy blob of a successfully compiled
contract, never a truncated or half-written file. -/
theorem build_error_exits (env : CompileEnv)
    (dirs : List (Except CompileError (List GContract)))
    (e : CompileError)
    (herr : (∃ e', sort_generated_contracts
          (find_r55_contract_projects dirs).flatten = Except.error e')
      ∨ (∃ sorted c, sort_generated_contracts
            (find_r55_contract_projects dirs).flatten = Except.ok sorted
          ∧ c ∈ sorted ∧ compileContract env c = none)) :
    (runBuild env dirs).1 ≠ 0
    ∧ (∀ p ∈ (runBuild env dirs).2,
        compileContract env ⟨p.1, []⟩ = some p.2)
    ∧ find_r55_contract_projects (Except.error e :: dirs)
        = find_r55_contract_projects dirs := by
  refine ⟨?_, ?_, ?_⟩
  · rcases herr with ⟨e', hsort⟩ | ⟨sorted, c, hsort, hcm, hfail⟩
    · simp [runBuild, hsort]
    · rw [runBuild, hsort]
      rw [buildLoop_fail env sorted [] c hcm hfail]
      omega
  · intro p hp
    rw [runBuild] at hp
    rcases hsort : sort_generated_contracts
        (find_r55_contract_projects dirs).flatten with e' | sorted
    · rw [hsort] at hp
      simp at hp
    · rw [hsort] at hp
      rcases buildLoop_files env sorted [] p hp with hw | hgood
      · simp at hw
      · exact hgood
  · simp [find_r55_contract_projects]

/-- C9 amended witness: a self-cycle in the one discovered project makes the
sort fail, the build exits nonzero with no files, and a parse-error
directory leaves discovery unchanged. -/
theorem build_error_exits_witness :
    (runBuild ⟨fun _ => true, fun _ => true, fun _ => []⟩
        [Except.ok [⟨"a", ["a"]⟩]]).1 ≠ 0
    ∧ (∀ p ∈ (runBuild ⟨fun _ => true, fun _ => true, fun _ => []⟩
        [Except.ok [⟨"a", ["a"]⟩]]).2,
        compileContract ⟨fun _ => true, fun _ => true, fun _ => []⟩ ⟨p.1, []⟩
          = some p.2)
    ∧ find_r55_contract_projects
        (Except.error (CompileError.tomlError "x")
          :: [Except.ok [⟨"a", ["a"]⟩]])
        = find_r55_contract_projects [Except.ok [⟨"a", ["a"]⟩]] :=
  build_error_exits ⟨fun _ => true, fun _ => true, fun _ => []⟩
    [Except.ok [⟨"a", ["a"]⟩]] (CompileError.tomlError "x")
    (Or.inl ⟨CompileError.cyclicDependency, rfl⟩)

end R55
